import Mathlib

/-!
Shallow embedding of the virtual ALSA PCM test driver (`pcmtest.c`):
the buffer-iterator engine (position tracking, pattern fill and verify in
interleaved and non-interleaved modes), the timer tick, the trigger/open/close
lifecycle callbacks and the debugfs pattern store.

Machine integers of the C source (`size_t`, `u32`, ...) are modelled as `Nat`;
the byte values of the DMA buffer and of the pattern are `Nat`s (the C code
reads them as `u8`, values `0..255`).  The DMA buffer `dma_area` is a
`List Nat`; out-of-range reads use `List.getD _ _ 0`.
-/

namespace Pcmtest

/-- `#define TIMER_PER_SEC 5` -/
def TIMER_PER_SEC : Nat := 5

/-- `#define MAX_PATTERN_LEN 4096` -/
def MAX_PATTERN_LEN : Nat := 4096

/-- `#define MAX_CHANNELS_NUM 4` -/
def MAX_CHANNELS_NUM : Nat := 4

/-- `#define FILL_MODE_RAND 0` -/
def FILL_MODE_RAND : Nat := 0

/-- `#define FILL_MODE_PAT 1` -/
def FILL_MODE_PAT : Nat := 1

/-- The process-wide pattern state: the static array
`char fill_pattern[MAX_PATTERN_LEN]` (a list of 4096 byte values) together
with the static `u32 pattern_len`, plus the `fill_mode` module parameter. -/
structure Glob where
  fill_pattern : List Nat
  pattern_len : Nat
  fill_mode : Nat
deriving Repr, DecidableEq

/-- Initial values of the statics: `fill_pattern = "abacaba"` (bytes
`97 98 97 99 97 98 97`, rest of the 4096-byte array zero), `pattern_len = 7`,
`fill_mode = FILL_MODE_PAT`. -/
def initGlob : Glob :=
  { fill_pattern := [97, 98, 97, 99, 97, 98, 97] ++ List.replicate (MAX_PATTERN_LEN - 7) 0
    pattern_len := 7
    fill_mode := FILL_MODE_PAT }

/-- `struct pcmtst_buf_iter` (the fields the engine reads and writes; the
`substream` back-pointer and the timer handle are plumbing). -/
structure BufIter where
  buf_pos : Nat
  period_pos : Nat
  b_rw : Nat
  sample_bytes : Nat
  is_buf_corrupted : Bool
  period_bytes : Nat
  interleaved : Bool
  total_bytes : Nat
  chan_block : Nat
deriving Repr, DecidableEq

/-- The fields of `struct snd_pcm_runtime` the engine reads and that stay
fixed while the stream runs: buffer length and channel count. -/
structure Runtime where
  dma_bytes : Nat
  channels : Nat
deriving Repr, DecidableEq

/-- `inc_buf_pos(v_iter, by, bytes)`:
`total_bytes += by; buf_pos += by; buf_pos %= bytes;` -/
def inc_buf_pos (v : BufIter) (amt bytes : Nat) : BufIter :=
  { v with
    total_bytes := v.total_bytes + amt
    buf_pos := (v.buf_pos + amt) % bytes }

/-- `buf_pos_nint(v_iter, channels, chan_num)`:
`v_iter->buf_pos / channels + v_iter->chan_block * chan_num`. -/
def buf_pos_nint (v : BufIter) (channels chan_num : Nat) : Nat :=
  v.buf_pos / channels + v.chan_block * chan_num

/-- `ch_pos_int(b_total, channels, b_sample)`:
`b_total / channels / b_sample * b_sample + b_total % b_sample`. -/
def ch_pos_int (b_total channels b_sample : Nat) : Nat :=
  b_total / channels / b_sample * b_sample + b_total % b_sample

/-- The byte the verify loop of `check_buf_block_i` expects at logical offset
`off` counted from the state `v`: `fill_pattern[ch_pos_int(total_bytes + off,
channels, sample_bytes) % pattern_len]`. -/
def expectedByteInt (g : Glob) (rt : Runtime) (v : BufIter) (off : Nat) : Nat :=
  g.fill_pattern.getD
    (ch_pos_int (v.total_bytes + off) rt.channels v.sample_bytes % g.pattern_len) 0

/-- The buffer byte the interleaved verify loop reads at logical offset `off`
counted from the state `v`: `dma_area[(buf_pos + off) % dma_bytes]`. -/
def scanByte (area : List Nat) (rt : Runtime) (v : BufIter) (off : Nat) : Nat :=
  area.getD ((v.buf_pos + off) % rt.dma_bytes) 0

/-- The `for` loop of `check_buf_block_i`.  `fuel` is the remaining iteration
count (`b_rw - i`); the result pairs the state after the loop with the number
of iterations that ran to completion (the C loop's exit value of `i`). -/
def check_loop_i (g : Glob) (rt : Runtime) (area : List Nat) :
    Nat → BufIter → BufIter × Nat
  | 0, v => (v, 0)
  | fuel + 1, v =>
    let current_byte := area.getD v.buf_pos 0
    if current_byte = 0 then (v, 0)
    else if current_byte ≠ g.fill_pattern.getD
        (ch_pos_int v.total_bytes rt.channels v.sample_bytes % g.pattern_len) 0 then
      ({ v with is_buf_corrupted := true }, 0)
    else
      let r := check_loop_i g rt area fuel (inc_buf_pos v 1 rt.dma_bytes)
      (r.1, r.2 + 1)

/-- `check_buf_block_i(v_iter, runtime)`: run the scan loop, then
`inc_buf_pos(v_iter, v_iter->b_rw - i, runtime->dma_bytes)` for the remaining
bytes. -/
def check_buf_block_i (g : Glob) (rt : Runtime) (area : List Nat) (v : BufIter) :
    BufIter :=
  let r := check_loop_i g rt area v.b_rw v
  inc_buf_pos r.1 (v.b_rw - r.2) rt.dma_bytes

/-- The `for` loop of `check_buf_block_ni`.  `i` is the current loop index
(used for the channel choice `i % channels`), `fuel` the remaining iteration
count; the result again carries the count of completed iterations. -/
def check_loop_ni (g : Glob) (rt : Runtime) (area : List Nat) :
    Nat → Nat → BufIter → BufIter × Nat
  | _, 0, v => (v, 0)
  | i, fuel + 1, v =>
    let current_byte := area.getD (buf_pos_nint v rt.channels (i % rt.channels)) 0
    if current_byte = 0 then (v, 0)
    else if current_byte ≠ g.fill_pattern.getD
        ((v.total_bytes / rt.channels) % g.pattern_len) 0 then
      ({ v with is_buf_corrupted := true }, 0)
    else
      let r := check_loop_ni g rt area (i + 1) fuel (inc_buf_pos v 1 rt.dma_bytes)
      (r.1, r.2 + 1)

/-- `check_buf_block_ni(v_iter, runtime)`. -/
def check_buf_block_ni (g : Glob) (rt : Runtime) (area : List Nat) (v : BufIter) :
    BufIter :=
  let r := check_loop_ni g rt area 0 v.b_rw v
  inc_buf_pos r.1 (v.b_rw - r.2) rt.dma_bytes

/-- `check_buf_block(v_iter, runtime)`: dispatch on the access mode. -/
def check_buf_block (g : Glob) (rt : Runtime) (area : List Nat) (v : BufIter) :
    BufIter :=
  if v.interleaved then check_buf_block_i g rt area v
  else check_buf_block_ni g rt area v

/-- The `for` loop of `fill_block_pattern_nint`: at loop index `i` it writes
`fill_pattern[(total_bytes / channels) % pattern_len]` at
`buf_pos_nint(v_iter, channels, i % channels)` and advances the position by
one byte.  `fuel` is the remaining iteration count. -/
def fill_loop_nint (g : Glob) (rt : Runtime) :
    Nat → Nat → BufIter → List Nat → BufIter × List Nat
  | _, 0, v, area => (v, area)
  | i, fuel + 1, v, area =>
    let area' := area.set (buf_pos_nint v rt.channels (i % rt.channels))
      (g.fill_pattern.getD ((v.total_bytes / rt.channels) % g.pattern_len) 0)
    fill_loop_nint g rt (i + 1) fuel (inc_buf_pos v 1 rt.dma_bytes) area'

/-- `fill_block_pattern_nint(v_iter, runtime)`. -/
def fill_block_pattern_nint (g : Glob) (rt : Runtime) (v : BufIter)
    (area : List Nat) : BufIter × List Nat :=
  fill_loop_nint g rt 0 v.b_rw v area

/-- The `for` loop of `fill_block_pattern_int`: writes
`fill_pattern[ch_pos_int(total_bytes, channels, sample_bytes) % pattern_len]`
at `buf_pos` and advances by one byte. -/
def fill_loop_int (g : Glob) (rt : Runtime) :
    Nat → BufIter → List Nat → BufIter × List Nat
  | 0, v, area => (v, area)
  | fuel + 1, v, area =>
    let pos_in_ch := ch_pos_int v.total_bytes rt.channels v.sample_bytes
    let area' := area.set v.buf_pos (g.fill_pattern.getD (pos_in_ch % g.pattern_len) 0)
    fill_loop_int g rt fuel (inc_buf_pos v 1 rt.dma_bytes) area'

/-- `fill_block_pattern_int(v_iter, runtime)`. -/
def fill_block_pattern_int (g : Glob) (rt : Runtime) (v : BufIter)
    (area : List Nat) : BufIter × List Nat :=
  fill_loop_int g rt v.b_rw v area

/-- `fill_block_pattern(v_iter, runtime)`. -/
def fill_block_pattern (g : Glob) (rt : Runtime) (v : BufIter)
    (area : List Nat) : BufIter × List Nat :=
  if v.interleaved then fill_block_pattern_int g rt v area
  else fill_block_pattern_nint g rt v area

/-- Overwrite `cnt` bytes of `area` starting at index `start` with the bytes
`src start, src (start+1), ...` — models one `get_random_bytes(dma_area + start,
cnt)` call, with `src` the random oracle indexed by absolute buffer position. -/
def setRange (area : List Nat) (src : Nat → Nat) : Nat → Nat → List Nat
  | _, 0 => area
  | start, cnt + 1 => setRange (area.set start (src start)) src (start + 1) cnt

/-- `fill_block_rand_nint(v_iter, runtime)`; `rand` abstracts
`get_random_bytes` as an oracle of byte values indexed by buffer position. -/
def fill_block_rand_nint (rand : Nat → Nat) (rt : Runtime) (v : BufIter)
    (area : List Nat) : BufIter × List Nat :=
  let channels := rt.channels
  let bytes_remain := rt.dma_bytes - v.buf_pos
  let area' := (List.range channels).foldl
    (fun a i =>
      if v.b_rw ≤ bytes_remain then
        setRange a rand (buf_pos_nint v channels i) (v.b_rw / channels)
      else
        setRange (setRange a rand (buf_pos_nint v channels i) (bytes_remain / channels))
          rand (v.chan_block * i) ((v.b_rw - bytes_remain) / channels))
    area
  (inc_buf_pos v v.b_rw rt.dma_bytes, area')

/-- `fill_block_rand_int(v_iter, runtime)`. -/
def fill_block_rand_int (rand : Nat → Nat) (rt : Runtime) (v : BufIter)
    (area : List Nat) : BufIter × List Nat :=
  let in_cur_block := rt.dma_bytes - v.buf_pos
  let area' :=
    if v.b_rw ≤ in_cur_block then setRange area rand v.buf_pos v.b_rw
    else setRange (setRange area rand v.buf_pos in_cur_block) rand 0
      (v.b_rw - in_cur_block)
  (inc_buf_pos v v.b_rw rt.dma_bytes, area')

/-- `fill_block_random(v_iter, runtime)`. -/
def fill_block_random (rand : Nat → Nat) (rt : Runtime) (v : BufIter)
    (area : List Nat) : BufIter × List Nat :=
  if v.interleaved then fill_block_rand_int rand rt v area
  else fill_block_rand_nint rand rt v area

/-- `fill_block(v_iter, runtime)`: dispatch on the `fill_mode` module
parameter; a mode outside {RAND, PAT} falls through the `switch` and leaves
everything unchanged. -/
def fill_block (g : Glob) (rand : Nat → Nat) (rt : Runtime) (v : BufIter)
    (area : List Nat) : BufIter × List Nat :=
  if g.fill_mode = FILL_MODE_RAND then fill_block_random rand rt v area
  else if g.fill_mode = FILL_MODE_PAT then fill_block_pattern g rt v area
  else (v, area)

/-- `substream->stream`: playback or capture. -/
inductive StreamDir where
  | playback
  | capture
deriving Repr, DecidableEq

/-- The mutable per-stream state a timer tick touches: the iterator and the
DMA buffer contents. -/
structure TickState where
  v : BufIter
  area : List Nat
deriving Repr, DecidableEq

/-- `timer_timeout(data)` minus the re-arming of the timer: verify (playback,
not yet corrupted), fill (capture) or just advance; then account the period
position and report whether `snd_pcm_period_elapsed` was signalled. -/
def timer_timeout (g : Glob) (rand : Nat → Nat) (rt : Runtime)
    (stream : StreamDir) (s : TickState) : TickState × Bool :=
  let step : BufIter × List Nat :=
    if stream = StreamDir.playback ∧ ¬s.v.is_buf_corrupted then
      (check_buf_block g rt s.area s.v, s.area)
    else if stream = StreamDir.capture then
      fill_block g rand rt s.v s.area
    else
      (inc_buf_pos s.v s.v.b_rw rt.dma_bytes, s.area)
  let v2 : BufIter := { step.1 with period_pos := step.1.period_pos + step.1.b_rw }
  if v2.period_bytes ≤ v2.period_pos then
    (⟨{ v2 with period_pos := v2.period_pos % v2.period_bytes }, step.2⟩, true)
  else
    (⟨v2, step.2⟩, false)

/-- `snd_pcmtst_pcm_open`: the iterator is `kzalloc`ed (all fields zero) and
then `buf_pos`, `is_buf_corrupted`, `period_pos`, `total_bytes` are zeroed
again explicitly. -/
def snd_pcmtst_pcm_open : BufIter :=
  { buf_pos := 0
    period_pos := 0
    b_rw := 0
    sample_bytes := 0
    is_buf_corrupted := false
    period_bytes := 0
    interleaved := false
    total_bytes := 0
    chan_block := 0 }

/-- `snd_pcmtst_pcm_close`: publishes
`playback_capture_test = !v_iter->is_buf_corrupted`. -/
def snd_pcmtst_pcm_close (v : BufIter) : Nat :=
  if v.is_buf_corrupted then 0 else 1

/-- The runtime fields `snd_pcmtst_pcm_trigger` reads: the negotiated rate,
sample width in bits, channel count, period size (in frames), access mode and
DMA buffer size. -/
structure TriggerRuntime where
  rate : Nat
  sample_bits : Nat
  channels : Nat
  period_size : Nat
  access_noninterleaved : Bool
  dma_bytes : Nat
deriving Repr, DecidableEq

/-- `frames_to_bytes(runtime, f) = f * frame_bits / 8` with
`frame_bits = channels * sample_bits`. -/
def frames_to_bytes (rt : TriggerRuntime) (f : Nat) : Nat :=
  f * (rt.channels * rt.sample_bits) / 8

/-- `snd_pcmtst_pcm_trigger(substream, cmd)`: returns `-EINVAL` (= `-22`) at
once when `inject_trigger_err` is set, leaving the iterator untouched;
otherwise derives `sample_bytes`, `period_bytes`, the layout mode (and
`chan_block` when non-interleaved) and the per-tick byte budget `b_rw`, and
returns `0`.  The result pairs the return code with the iterator state. -/
def snd_pcmtst_pcm_trigger (inject_trigger_err : Bool) (rt : TriggerRuntime)
    (v : BufIter) : Int × BufIter :=
  if inject_trigger_err then (-22, v)
  else
    let v1 := { v with
      sample_bytes := rt.sample_bits / 8
      period_bytes := frames_to_bytes rt rt.period_size }
    let v2 :=
      if rt.access_noninterleaved then
        { v1 with chan_block := rt.dma_bytes / rt.channels, interleaved := false }
      else
        { v1 with interleaved := true }
    (0, { v2 with
      b_rw := rt.rate * rt.sample_bits / 8 / TIMER_PER_SEC * rt.channels })

/-- The sample rates allowed by `snd_pcmtst_hw` (`.rates =
SNDRV_PCM_RATE_8000_48000`, `.rate_min = 8000`, `.rate_max = 48000`): the
ALSA rate mask `SNDRV_PCM_RATE_8000_48000` is the union of the discrete
standard rates 8000, 11025, 16000, 22050, 32000, 44100 and 48000 Hz. -/
def supportedRates : List Nat := [8000, 11025, 16000, 22050, 32000, 44100, 48000]

/-- The sample widths allowed by `snd_pcmtst_hw` (`.formats =
SNDRV_PCM_FMTBIT_U8 | SNDRV_PCM_FMTBIT_S16_LE`): 8 or 16 bits. -/
def supportedBits : List Nat := [8, 16]

/-- `copy_from_user(fill_pattern + off, buff, n)` for a readable source:
overwrite the bytes of `buf` at indices `off, off+1, ...` with the bytes of
`data` in order. -/
def setBytes : List Nat → Nat → List Nat → List Nat
  | buf, _, [] => buf
  | buf, off, d :: ds => setBytes (buf.set off d) (off + 1) ds

/-- Result of one `pattern_write` call: the new global pattern state, the new
file offset and the returned `ssize_t`. -/
structure WriteResult where
  g : Glob
  off : Nat
  ret : Int
deriving Repr, DecidableEq

/-- `pattern_write(file, buff, len, off)`.  `data` is the user buffer
(`len = data.length`), `readable` tells whether `copy_from_user` succeeds
(`-EFAULT = -14` otherwise).  `loff_t` offsets reachable through debugfs are
non-negative, so the offset is a `Nat`; the C comparisons
`*off + to_write > MAX_PATTERN_LEN` and `to_write <= 0` are reproduced by the
truncated subtraction `MAX_PATTERN_LEN - off` together with `to_write = 0`. -/
def pattern_write (g : Glob) (off : Nat) (data : List Nat) (readable : Bool) :
    WriteResult :=
  let to_write : Nat :=
    if MAX_PATTERN_LEN < off + data.length then MAX_PATTERN_LEN - off
    else data.length
  if to_write = 0 then ⟨g, off, (data.length : Int)⟩
  else if readable then
    ⟨{ g with
        fill_pattern := setBytes g.fill_pattern off (data.take to_write)
        pattern_len := off + to_write },
      off + to_write, (to_write : Int)⟩
  else ⟨g, off, -14⟩

/-- Result of one `pattern_read` call: the bytes copied out, the new file
offset and the returned `ssize_t` (never negative). -/
structure ReadResult where
  bytes : List Nat
  off : Nat
  ret : Nat
deriving Repr, DecidableEq

/-- `pattern_read(file, buff, len, off)`.  `sink_ok` tells whether
`copy_to_user` succeeds (on failure the function returns `0` and does not
advance the offset). -/
def pattern_read (g : Glob) (off len : Nat) (sink_ok : Bool) : ReadResult :=
  let to_read : Nat :=
    if MAX_PATTERN_LEN ≤ off + len then MAX_PATTERN_LEN - off else len
  if to_read = 0 then ⟨[], off, 0⟩
  else if sink_ok then ⟨(g.fill_pattern.drop off).take to_read, off + to_read, to_read⟩
  else ⟨[], off, 0⟩

/-- One write request against the debugfs pattern file: an offset, the user
bytes and whether the source page is readable. -/
structure WriteOp where
  off : Nat
  data : List Nat
  readable : Bool
deriving Repr, DecidableEq

/-- The pattern state after a sequence of `pattern_write` calls. -/
def applyWrites (g : Glob) (ops : List WriteOp) : Glob :=
  ops.foldl (fun s op => (pattern_write s op.off op.data op.readable).g) g

/-- A sequence of tick advances applied to an iterator
(`inc_buf_pos` with the buffer length `bytes`). -/
def advanceTicks (v : BufIter) (bytes : Nat) (advances : List Nat) : BufIter :=
  advances.foldl (fun w a => inc_buf_pos w a bytes) v

/-- One full playback timer tick (the state part of `timer_timeout` for a
playback substream). -/
def playbackTick (g : Glob) (rand : Nat → Nat) (rt : Runtime) (s : TickState) :
    TickState :=
  (timer_timeout g rand rt StreamDir.playback s).1

/-- `n` capture timer ticks in non-interleaved pattern mode
(`fill_block_pattern_nint` each tick). -/
def fill_ticks_nint (g : Glob) (rt : Runtime) : Nat → TickState → TickState
  | 0, s => s
  | n + 1, s =>
    let r := fill_block_pattern_nint g rt s.v s.area
    fill_ticks_nint g rt n ⟨r.1, r.2⟩

section Helpers

/-- `List.getD` of `List.set` at the written (in-range) index. -/
theorem getD_set_eq (l : List Nat) (i : Nat) (a : Nat) (h : i < l.length) :
    (l.set i a).getD i 0 = a := by
  simp [List.getD_eq_getElem?_getD, List.getElem?_set_self', List.getElem?_eq_getElem, h]

/-- `List.getD` of `List.set` away from the written index. -/
theorem getD_set_ne (l : List Nat) (i j : Nat) (a : Nat) (h : i ≠ j) :
    (l.set i a).getD j 0 = l.getD j 0 := by
  simp [List.getD_eq_getElem?_getD, List.getElem?_set_ne h]

/-- Decomposing an absolute non-interleaved buffer index into its channel and
in-channel offset is unique. -/
theorem block_decomp_unique {cb k j m j' : Nat} (hj : j < cb) (hj' : j' < cb)
    (h : cb * k + j = cb * m + j') : k = m ∧ j = j' := by
  have hcb : 0 < cb := Nat.pos_of_ne_zero (by rintro rfl; omega)
  have hjj : j = j' := by
    have h1 := congrArg (· % cb) h
    simpa [Nat.mul_add_mod, Nat.mod_eq_of_lt hj, Nat.mod_eq_of_lt hj'] using h1
  subst hjj
  refine ⟨?_, rfl⟩
  have hkm : cb * k = cb * m := by omega
  exact Nat.eq_of_mul_eq_mul_left hcb hkm

end Helpers

section AdvanceLemmas

/-- `advanceTicks` accumulates the advance amounts into `total_bytes`. -/
theorem advanceTicks_total (adv : List Nat) : ∀ (v : BufIter) (bytes : Nat),
    (advanceTicks v bytes adv).total_bytes = v.total_bytes + adv.sum := by
  induction adv with
  | nil => intro v bytes; simp [advanceTicks]
  | cons a t ih =>
    intro v bytes
    show (advanceTicks (inc_buf_pos v a bytes) bytes t).total_bytes = _
    rw [ih]
    simp [inc_buf_pos]
    omega

/-- `advanceTicks` keeps `buf_pos` below the (positive) buffer length. -/
theorem advanceTicks_buf_pos_lt (adv : List Nat) : ∀ (v : BufIter) (bytes : Nat),
    0 < bytes → v.buf_pos < bytes → (advanceTicks v bytes adv).buf_pos < bytes := by
  induction adv with
  | nil => intro v bytes _ hv; exact hv
  | cons a t ih =>
    intro v bytes h hv
    exact ih (inc_buf_pos v a bytes) bytes h (Nat.mod_lt _ h)

end AdvanceLemmas

section SetBytesLemmas

/-- `setBytes` does not change the buffer length. -/
theorem setBytes_length (data : List Nat) : ∀ (buf : List Nat) (off : Nat),
    (setBytes buf off data).length = buf.length := by
  induction data with
  | nil => intro buf off; rfl
  | cons d ds ih =>
    intro buf off
    show (setBytes (buf.set off d) (off + 1) ds).length = _
    rw [ih]
    simp

/-- `setBytes` leaves bytes before the written range unchanged. -/
theorem setBytes_getD_lt (data : List Nat) : ∀ (buf : List Nat) (off p : Nat),
    p < off → (setBytes buf off data).getD p 0 = buf.getD p 0 := by
  induction data with
  | nil => intro buf off p _; rfl
  | cons d ds ih =>
    intro buf off p hp
    show (setBytes (buf.set off d) (off + 1) ds).getD p 0 = _
    rw [ih _ _ _ (by omega), getD_set_ne _ _ _ _ (by omega)]

/-- `setBytes` leaves bytes past the written range unchanged. -/
theorem setBytes_getD_ge (data : List Nat) : ∀ (buf : List Nat) (off p : Nat),
    off + data.length ≤ p → (setBytes buf off data).getD p 0 = buf.getD p 0 := by
  induction data with
  | nil => intro buf off p _; rfl
  | cons d ds ih =>
    intro buf off p hp
    simp only [List.length_cons] at hp
    show (setBytes (buf.set off d) (off + 1) ds).getD p 0 = _
    rw [ih _ _ _ (by omega), getD_set_ne _ _ _ _ (by omega)]

/-- `setBytes` copies the source bytes to their target positions (for an
in-range write). -/
theorem setBytes_getD_in (data : List Nat) : ∀ (buf : List Nat) (off j : Nat),
    j < data.length → off + data.length ≤ buf.length →
    (setBytes buf off data).getD (off + j) 0 = data.getD j 0 := by
  induction data with
  | nil => intro buf off j hj _; simp at hj
  | cons d ds ih =>
    intro buf off j hj hbuf
    simp only [List.length_cons] at hj hbuf
    show (setBytes (buf.set off d) (off + 1) ds).getD (off + j) 0 = _
    match j with
    | 0 =>
      rw [setBytes_getD_lt _ _ _ _ (by omega)]
      exact getD_set_eq _ _ _ (by omega)
    | j' + 1 =>
      have := ih (buf.set off d) (off + 1) j' (by omega) (by simp; omega)
      rw [show off + (j' + 1) = off + 1 + j' by omega, this]
      rfl

end SetBytesLemmas

/-- C2: the logical pattern index of the interleaved mode is
`ch_pos_int(total, channels, sample_bytes)
  = total / channels / sample_bytes * sample_bytes + total % sample_bytes`,
and for the byte of sample `s`, channel `c`, in-sample offset `j`
(at stream position `(s * channels + c) * sample_bytes + j`) it equals
`s * sample_bytes + j` — the same value for every channel `c`. -/
theorem ch_pos_int_channel_independent (channels sample_bytes : Nat)
    (hc : 1 ≤ channels) (hb : 1 ≤ sample_bytes) :
    (∀ total_bytes, ch_pos_int total_bytes channels sample_bytes =
        total_bytes / channels / sample_bytes * sample_bytes +
          total_bytes % sample_bytes) ∧
    (∀ s c j, c < channels → j < sample_bytes →
        ch_pos_int ((s * channels + c) * sample_bytes + j) channels sample_bytes =
          s * sample_bytes + j) := by
  refine ⟨fun _ => rfl, fun s c j hcc hj => ?_⟩
  unfold ch_pos_int
  have hmod : ((s * channels + c) * sample_bytes + j) % sample_bytes = j := by
    rw [Nat.mul_comm (s * channels + c) sample_bytes, Nat.mul_add_mod,
      Nat.mod_eq_of_lt hj]
  have hq : (c * sample_bytes + j) / channels < sample_bytes := by
    have hlt : c * sample_bytes + j < sample_bytes * channels := by
      calc c * sample_bytes + j < c * sample_bytes + sample_bytes := by omega
        _ = (c + 1) * sample_bytes := by ring
        _ ≤ channels * sample_bytes := Nat.mul_le_mul_right _ (by omega)
        _ = sample_bytes * channels := Nat.mul_comm _ _
    exact (Nat.div_lt_iff_lt_mul (by omega)).mpr hlt
  have hdiv : ((s * channels + c) * sample_bytes + j) / channels / sample_bytes = s := by
    have e1 : (s * channels + c) * sample_bytes + j
        = channels * (s * sample_bytes) + (c * sample_bytes + j) := by ring
    rw [e1, Nat.mul_add_div (by omega)]
    have e2 : s * sample_bytes + (c * sample_bytes + j) / channels
        = sample_bytes * s + (c * sample_bytes + j) / channels := by ring
    rw [e2, Nat.mul_add_div (by omega), Nat.div_eq_of_lt hq]
    omega
  rw [hmod, hdiv]

/-- Witness for C2: sample 3, channel 1 of 2, byte 1 of a 2-byte sample. -/
theorem ch_pos_int_channel_independent_witness :
    ch_pos_int ((3 * 2 + 1) * 2 + 1) 2 2 = 3 * 2 + 1 :=
  (ch_pos_int_channel_independent 2 2 (by decide) (by decide)).2 3 1 1
    (by decide) (by decide)

/-- C4: starting from a freshly opened iterator, any sequence of tick
advances keeps `buf_pos` in `[0, buffer_len)`, makes `total_bytes` the sum of
all advances, and `total_bytes` never decreases along the sequence. -/
theorem buf_pos_wraparound_invariant (advances : List Nat) (buffer_len : Nat)
    (h : 0 < buffer_len) :
    (advanceTicks snd_pcmtst_pcm_open buffer_len advances).buf_pos < buffer_len ∧
    (advanceTicks snd_pcmtst_pcm_open buffer_len advances).total_bytes =
      advances.sum ∧
    ∀ pre suf, advances = pre ++ suf →
      (advanceTicks snd_pcmtst_pcm_open buffer_len pre).total_bytes ≤
        (advanceTicks snd_pcmtst_pcm_open buffer_len advances).total_bytes := by
  refine ⟨advanceTicks_buf_pos_lt _ _ _ h (by simpa [snd_pcmtst_pcm_open] using h),
    ?_, ?_⟩
  · rw [advanceTicks_total]
    simp [snd_pcmtst_pcm_open]
  · intro pre suf hps
    subst hps
    rw [advanceTicks_total, advanceTicks_total]
    simp [List.sum_append]

/-- Witness for C4: three advances against a 4-byte buffer. -/
theorem buf_pos_wraparound_invariant_witness :
    (advanceTicks snd_pcmtst_pcm_open 4 [3, 5, 6]).buf_pos < 4 ∧
    (advanceTicks snd_pcmtst_pcm_open 4 [3, 5, 6]).total_bytes = [3, 5, 6].sum :=
  ⟨(buf_pos_wraparound_invariant [3, 5, 6] 4 (by decide)).1,
   (buf_pos_wraparound_invariant [3, 5, 6] 4 (by decide)).2.1⟩

/-- C9: with the error-injection flag set the trigger callback returns
`-EINVAL` and mutates nothing; with it clear it returns `0` and derives
`b_rw`, `period_bytes`, `sample_bytes` and the layout mode. -/
theorem trigger_error_injection (rt : TriggerRuntime) (v : BufIter) :
    (snd_pcmtst_pcm_trigger true rt v).1 = -22 ∧
    (snd_pcmtst_pcm_trigger true rt v).2 = v ∧
    (snd_pcmtst_pcm_trigger false rt v).1 = 0 ∧
    (snd_pcmtst_pcm_trigger false rt v).2.b_rw =
      rt.rate * rt.sample_bits / 8 / TIMER_PER_SEC * rt.channels ∧
    (snd_pcmtst_pcm_trigger false rt v).2.period_bytes =
      frames_to_bytes rt rt.period_size ∧
    (snd_pcmtst_pcm_trigger false rt v).2.sample_bytes = rt.sample_bits / 8 ∧
    (snd_pcmtst_pcm_trigger false rt v).2.interleaved = !rt.access_noninterleaved := by
  obtain ⟨rate, bits, ch, psz, acc, dma⟩ := rt
  cases acc <;> exact ⟨rfl, rfl, rfl, rfl, rfl, rfl, rfl⟩

/-- C6: for every configuration the hardware descriptor allows (rate from
the `SNDRV_PCM_RATE_8000_48000` mask, 8- or 16-bit samples, 1–4 channels),
a successful trigger sets the per-tick byte budget to
`rate * sample_bytes * channels / TIMER_PER_SEC`. -/
theorem trigger_b_rw_budget (rt : TriggerRuntime) (v : BufIter)
    (hr : rt.rate ∈ supportedRates) (hb : rt.sample_bits ∈ supportedBits)
    (hc1 : 1 ≤ rt.channels) (hc4 : rt.channels ≤ MAX_CHANNELS_NUM) :
    (snd_pcmtst_pcm_trigger false rt v).1 = 0 ∧
    (snd_pcmtst_pcm_trigger false rt v).2.b_rw =
      rt.rate * (rt.sample_bits / 8) * rt.channels / TIMER_PER_SEC := by
  obtain ⟨rate, bits, ch, psz, acc, dma⟩ := rt
  refine ⟨rfl, ?_⟩
  show rate * bits / 8 / TIMER_PER_SEC * ch = rate * (bits / 8) * ch / TIMER_PER_SEC
  simp only [supportedRates, supportedBits, List.mem_cons, List.not_mem_nil,
    or_false] at hr hb
  simp only [TIMER_PER_SEC]
  rcases hr with rfl | rfl | rfl | rfl | rfl | rfl | rfl <;>
    rcases hb with rfl | rfl <;> omega

/-- Witness for C6: 44.1 kHz, 16-bit, 3 channels. -/
theorem trigger_b_rw_budget_witness :
    (snd_pcmtst_pcm_trigger false ⟨44100, 16, 3, 8, true, 96⟩
        snd_pcmtst_pcm_open).1 = 0 ∧
    (snd_pcmtst_pcm_trigger false ⟨44100, 16, 3, 8, true, 96⟩
        snd_pcmtst_pcm_open).2.b_rw = 44100 * (16 / 8) * 3 / TIMER_PER_SEC :=
  trigger_b_rw_budget ⟨44100, 16, 3, 8, true, 96⟩ snd_pcmtst_pcm_open
    (by decide) (by decide) (by decide) (by decide)

/-- C8 counterexample: with the initial store (`pattern_len = 7`), a read at
offset `7` — exactly the end of the stored pattern — returns 3 bytes (the
stale zero bytes of the backing array), not an empty result: the cap is
`MAX_PATTERN_LEN`, not `pattern_len`. -/
theorem pattern_read_past_len_counterexample :
    initGlob.pattern_len = 7 ∧
    (pattern_read initGlob 7 3 true).ret = 3 ∧
    (pattern_read initGlob 7 3 true).bytes = [0, 0, 0] := by
  refine ⟨rfl, rfl, ?_⟩
  rfl

/-- Closed form of `pattern_read`: writing `r` for
`min len (MAX_PATTERN_LEN - off)`, it returns `r` bytes of the backing array
starting at `off` (nothing on a zero count or a failing sink). -/
theorem pattern_read_eq (g : Glob) (off len : Nat) (sink_ok : Bool) :
    pattern_read g off len sink_ok =
      if min len (MAX_PATTERN_LEN - off) = 0 then ⟨[], off, 0⟩
      else if sink_ok then
        ⟨(g.fill_pattern.drop off).take (min len (MAX_PATTERN_LEN - off)),
         off + min len (MAX_PATTERN_LEN - off), min len (MAX_PATTERN_LEN - off)⟩
      else ⟨[], off, 0⟩ := by
  have hr : (if MAX_PATTERN_LEN ≤ off + len then MAX_PATTERN_LEN - off else len)
      = min len (MAX_PATTERN_LEN - off) := by
    split_ifs with h <;> omega
  simp only [pattern_read]
  rw [hr]

/-- C8 amended: `pattern_read` returns `min max_len (MAX_PATTERN_LEN - off)`
bytes taken from the backing array at `off` — capped at the 4096-byte
capacity, not at `pattern_len` — and advances the offset by the same count;
only a read starting at or beyond the capacity returns an empty result. -/
theorem pattern_read_spec (g : Glob) (off len : Nat) :
    (pattern_read g off len true).ret = min len (MAX_PATTERN_LEN - off) ∧
    (pattern_read g off len true).bytes =
      (g.fill_pattern.drop off).take (min len (MAX_PATTERN_LEN - off)) ∧
    (pattern_read g off len true).off = off + min len (MAX_PATTERN_LEN - off) := by
  rw [pattern_read_eq]
  by_cases hzero : min len (MAX_PATTERN_LEN - off) = 0
  · rw [if_pos hzero, hzero]
    simp
  · rw [if_neg hzero, if_pos rfl]
    exact ⟨rfl, rfl, rfl⟩

/-- C7 counterexample: a write whose offset already sits at the capacity
stores nothing and leaves the pattern state untouched, yet returns the full
requested length `5` — not the count of bytes actually stored (`0`). -/
theorem pattern_write_overflow_counterexample :
    (pattern_write initGlob 4096 [1, 2, 3, 4, 5] true).ret = 5 ∧
    (pattern_write initGlob 4096 [1, 2, 3, 4, 5] true).g = initGlob ∧
    (pattern_write initGlob 4096 [1, 2, 3, 4, 5] true).off = 4096 :=
  ⟨rfl, rfl, rfl⟩

/-- Closed form of `pattern_write`: writing `w` for
`min len (MAX_PATTERN_LEN - off)`, a zero count returns `len` unchanged, a
readable source stores `w` bytes and sets `pattern_len = off + w`, an
unreadable one returns `-EFAULT`. -/
theorem pattern_write_eq (g : Glob) (off : Nat) (data : List Nat)
    (readable : Bool) :
    pattern_write g off data readable =
      if min data.length (MAX_PATTERN_LEN - off) = 0 then
        ⟨g, off, (data.length : Int)⟩
      else if readable then
        ⟨⟨setBytes g.fill_pattern off
            (data.take (min data.length (MAX_PATTERN_LEN - off))),
          off + min data.length (MAX_PATTERN_LEN - off), g.fill_mode⟩,
         off + min data.length (MAX_PATTERN_LEN - off),
         Int.ofNat (min data.length (MAX_PATTERN_LEN - off))⟩
      else ⟨g, off, -14⟩ := by
  have hw : (if MAX_PATTERN_LEN < off + data.length then MAX_PATTERN_LEN - off
      else data.length) = min data.length (MAX_PATTERN_LEN - off) := by
    split_ifs with h <;> omega
  simp only [pattern_write]
  rw [hw]
  rfl

/-- C7 amended: `pattern_write` stores `w = min len (MAX_PATTERN_LEN - off)`
bytes.  When `w > 0` it copies them to `fill_pattern[off..off+w)`, leaves the
rest of the array unchanged, sets `pattern_len = off + w` (so a shorter write
truncates the effective length) and returns `w`; when `w = 0` (in particular
for any offset at or beyond the capacity) it stores nothing, changes nothing,
and returns the full requested length rather than `0`.  On a readable source
it never fails. -/
theorem pattern_write_spec (g : Glob) (off : Nat) (data : List Nat)
    (hlen : g.fill_pattern.length = MAX_PATTERN_LEN) :
    0 ≤ (pattern_write g off data true).ret ∧
    (0 < min data.length (MAX_PATTERN_LEN - off) →
      (pattern_write g off data true).ret =
        Int.ofNat (min data.length (MAX_PATTERN_LEN - off)) ∧
      (pattern_write g off data true).g.pattern_len =
        off + min data.length (MAX_PATTERN_LEN - off) ∧
      (pattern_write g off data true).off =
        off + min data.length (MAX_PATTERN_LEN - off) ∧
      (∀ j, j < min data.length (MAX_PATTERN_LEN - off) →
        (pattern_write g off data true).g.fill_pattern.getD (off + j) 0 =
          data.getD j 0) ∧
      (∀ p, p < off ∨ off + min data.length (MAX_PATTERN_LEN - off) ≤ p →
        (pattern_write g off data true).g.fill_pattern.getD p 0 =
          g.fill_pattern.getD p 0)) ∧
    (min data.length (MAX_PATTERN_LEN - off) = 0 →
      (pattern_write g off data true).ret = (data.length : Int) ∧
      (pattern_write g off data true).g = g ∧
      (pattern_write g off data true).off = off) ∧
    ∀ readable, (pattern_write g off data readable).ret < 0 →
      readable = false := by
  by_cases hzero : min data.length (MAX_PATTERN_LEN - off) = 0
  · rw [pattern_write_eq, if_pos hzero]
    refine ⟨by show (0 : Int) ≤ (data.length : Int); omega,
      fun h => absurd h (by omega), fun _ => ⟨rfl, rfl, rfl⟩, ?_⟩
    intro readable
    rw [pattern_write_eq, if_pos hzero]
    intro h
    exact absurd h (by show ¬((data.length : Int) < 0); omega)
  · have hwpos : 0 < min data.length (MAX_PATTERN_LEN - off) := by omega
    have hoffM : off + min data.length (MAX_PATTERN_LEN - off)
        ≤ MAX_PATTERN_LEN := by omega
    have htklen : (data.take (min data.length (MAX_PATTERN_LEN - off))).length
        = min data.length (MAX_PATTERN_LEN - off) := by
      simp
    rw [pattern_write_eq, if_neg hzero, if_pos rfl]
    have hnn : (0 : Int) ≤ Int.ofNat (min data.length (MAX_PATTERN_LEN - off)) :=
      Int.ofNat_nonneg _
    refine ⟨hnn,
      fun _ => ⟨rfl, rfl, rfl, ?_, ?_⟩,
      fun h => absurd h hzero, ?_⟩
    · intro j hj
      have hjlen : j < data.length := by omega
      have hin := setBytes_getD_in
        (data.take (min data.length (MAX_PATTERN_LEN - off)))
        g.fill_pattern off j (by rw [htklen]; exact hj)
        (by rw [htklen, hlen]; exact hoffM)
      have htk : (data.take (min data.length (MAX_PATTERN_LEN - off))).getD j 0
          = data.getD j 0 := by
        simp [List.getD_eq_getElem?_getD, List.getElem?_take, hj,
          List.getElem?_eq_getElem, hjlen]
      exact hin.trans htk
    · intro p hp
      rcases hp with hp | hp
      · exact setBytes_getD_lt _ _ _ _ hp
      · exact setBytes_getD_ge _ _ _ _ (by rw [htklen]; exact hp)
    · intro readable
      rw [pattern_write_eq, if_neg hzero]
      cases readable
      · intro _
        rfl
      · rw [if_pos rfl]
        intro h
        exact absurd h
          (by show ¬(Int.ofNat (min data.length (MAX_PATTERN_LEN - off)) < 0); omega)

/-- Witness for C7's amended theorem: a one-byte write at offset 0 succeeds
and sets `pattern_len = 1`. -/
theorem pattern_write_spec_witness :
    0 ≤ (pattern_write initGlob 0 [5] true).ret ∧
    (pattern_write initGlob 0 [5] true).g.pattern_len = 1 :=
  have hlen : initGlob.fill_pattern.length = MAX_PATTERN_LEN := by
    show ([97, 98, 97, 99, 97, 98, 97] ++
      List.replicate (MAX_PATTERN_LEN - 7) 0).length = MAX_PATTERN_LEN
    rw [List.length_append, List.length_replicate]
    decide
  ⟨(pattern_write_spec initGlob 0 [5] hlen).1,
   ((pattern_write_spec initGlob 0 [5] hlen).2.1 (by decide)).2.1⟩

/-- The pattern-length bounds are preserved by every single `pattern_write`
call. -/
theorem pattern_write_len_bounds (g : Glob) (off : Nat) (data : List Nat)
    (readable : Bool) (h1 : 1 ≤ g.pattern_len)
    (h2 : g.pattern_len ≤ MAX_PATTERN_LEN) :
    1 ≤ (pattern_write g off data readable).g.pattern_len ∧
    (pattern_write g off data readable).g.pattern_len ≤ MAX_PATTERN_LEN := by
  rw [pattern_write_eq]
  by_cases hzero : min data.length (MAX_PATTERN_LEN - off) = 0
  · rw [if_pos hzero]
    exact ⟨h1, h2⟩
  · rw [if_neg hzero]
    cases readable
    · exact ⟨h1, h2⟩
    · rw [if_pos rfl]
      constructor
      · show 1 ≤ off + min data.length (MAX_PATTERN_LEN - off)
        omega
      · show off + min data.length (MAX_PATTERN_LEN - off) ≤ MAX_PATTERN_LEN
        omega

/-- C10: after driver init and any sequence of pattern writes,
`1 ≤ pattern_len ≤ MAX_PATTERN_LEN`, so the `% pattern_len` reduction of
every fill/verify step never divides by zero; a fully out-of-range write
leaves the pattern state untouched. -/
theorem pattern_len_in_range (ops : List WriteOp) :
    (1 ≤ (applyWrites initGlob ops).pattern_len ∧
      (applyWrites initGlob ops).pattern_len ≤ MAX_PATTERN_LEN) ∧
    (∀ x : Nat, x % (applyWrites initGlob ops).pattern_len
        < (applyWrites initGlob ops).pattern_len) ∧
    ∀ (g : Glob) (off : Nat) (data : List Nat) (readable : Bool),
      MAX_PATTERN_LEN ≤ off → (pattern_write g off data readable).g = g := by
  have hinv : ∀ (l : List WriteOp) (g : Glob),
      1 ≤ g.pattern_len → g.pattern_len ≤ MAX_PATTERN_LEN →
      1 ≤ (applyWrites g l).pattern_len ∧
        (applyWrites g l).pattern_len ≤ MAX_PATTERN_LEN := by
    intro l
    induction l with
    | nil => intro g hg1 hg2; exact ⟨hg1, hg2⟩
    | cons op t ih =>
      intro g hg1 hg2
      have hstep := pattern_write_len_bounds g op.off op.data op.readable hg1 hg2
      exact ih _ hstep.1 hstep.2
  have hbase := hinv ops initGlob (by decide) (by decide)
  refine ⟨hbase, fun x => Nat.mod_lt _ (by omega), ?_⟩
  intro g off data readable hoff
  rw [pattern_write_eq, if_pos (by omega)]

/-- Witness for C10: the theorem applied after two concrete writes, plus the
out-of-range clause at offset 4096. -/
theorem pattern_len_in_range_witness :
    (1 ≤ (applyWrites initGlob [⟨0, [1, 2, 3], true⟩, ⟨1, [9], true⟩]).pattern_len ∧
      (applyWrites initGlob [⟨0, [1, 2, 3], true⟩, ⟨1, [9], true⟩]).pattern_len
        ≤ MAX_PATTERN_LEN) ∧
    (pattern_write initGlob 4096 [7] true).g = initGlob :=
  ⟨(pattern_len_in_range [⟨0, [1, 2, 3], true⟩, ⟨1, [9], true⟩]).1,
   (pattern_len_in_range []).2.2 initGlob 4096 [7] true (by decide)⟩

/-- A playback tick on an already-corrupted iterator skips verification: it
only advances `buf_pos`/`total_bytes` by `b_rw` (plus period accounting) and
touches neither the buffer nor the corruption flag. -/
theorem playbackTick_corrupted_step (g : Glob) (rand : Nat → Nat) (rt : Runtime)
    (s : TickState) (h : s.v.is_buf_corrupted = true) :
    (playbackTick g rand rt s).area = s.area ∧
    (playbackTick g rand rt s).v.is_buf_corrupted = true ∧
    (playbackTick g rand rt s).v.total_bytes = s.v.total_bytes + s.v.b_rw ∧
    (playbackTick g rand rt s).v.buf_pos
      = (s.v.buf_pos + s.v.b_rw) % rt.dma_bytes ∧
    (playbackTick g rand rt s).v.b_rw = s.v.b_rw ∧
    (playbackTick g rand rt s).v.sample_bytes = s.v.sample_bytes ∧
    (playbackTick g rand rt s).v.interleaved = s.v.interleaved ∧
    (playbackTick g rand rt s).v.chan_block = s.v.chan_block ∧
    (playbackTick g rand rt s).v.period_bytes = s.v.period_bytes := by
  simp only [playbackTick, timer_timeout, h]
  split_ifs <;> simp_all [inc_buf_pos]

/-- C5: once a playback verify step has set `is_buf_corrupted`, it stays set:
every later tick skips verification and only advances the position (the
buffer is untouched), the trigger callback never clears it, and close
publishes the Fail verdict `pc_test = 0`. -/
theorem corruption_sticky (g : Glob) (rand : Nat → Nat) (rt : Runtime)
    (s : TickState) (h : s.v.is_buf_corrupted = true)
    (hbp : s.v.buf_pos < rt.dma_bytes) :
    (∀ n : Nat,
      ((playbackTick g rand rt)^[n] s).v.is_buf_corrupted = true ∧
      ((playbackTick g rand rt)^[n] s).area = s.area ∧
      ((playbackTick g rand rt)^[n] s).v.b_rw = s.v.b_rw ∧
      ((playbackTick g rand rt)^[n] s).v.total_bytes
        = s.v.total_bytes + n * s.v.b_rw ∧
      ((playbackTick g rand rt)^[n] s).v.buf_pos
        = (s.v.buf_pos + n * s.v.b_rw) % rt.dma_bytes ∧
      snd_pcmtst_pcm_close ((playbackTick g rand rt)^[n] s).v = 0) ∧
    ∀ (inj : Bool) (trt : TriggerRuntime),
      (snd_pcmtst_pcm_trigger inj trt s.v).2.is_buf_corrupted = true := by
  constructor
  · intro n
    induction n with
    | zero =>
      refine ⟨h, rfl, rfl, by simp, ?_, by simp [snd_pcmtst_pcm_close, h]⟩
      simp [Nat.mod_eq_of_lt hbp]
    | succ n ih =>
      obtain ⟨ihc, iha, ihb, iht, ihp, _⟩ := ih
      rw [Function.iterate_succ_apply']
      have hstep := playbackTick_corrupted_step g rand rt _ ihc
      obtain ⟨ha, hc, ht, hp, hb, _, _, _, _⟩ := hstep
      refine ⟨hc, ha.trans iha, hb.trans ihb, ?_, ?_, by simp [snd_pcmtst_pcm_close, hc]⟩
      · rw [ht, iht, ihb, Nat.succ_mul]
        omega
      · rw [hp, ihp, ihb, Nat.mod_add_mod, Nat.succ_mul, Nat.add_assoc]
  · intro inj trt
    obtain ⟨rate, bits, ch, psz, acc, dma⟩ := trt
    cases inj
    · cases acc <;> simpa [snd_pcmtst_pcm_trigger] using h
    · simpa [snd_pcmtst_pcm_trigger] using h

/-- Witness for C5: a corrupted iterator over a 4-byte buffer stays corrupted
for two more ticks and closes with verdict 0. -/
theorem corruption_sticky_witness :
    ((playbackTick initGlob (fun _ => 0) ⟨4, 1⟩)^[2]
        ⟨⟨0, 0, 3, 1, true, 8, true, 0, 0⟩, [1, 2, 3, 4]⟩).v.is_buf_corrupted
      = true ∧
    ((playbackTick initGlob (fun _ => 0) ⟨4, 1⟩)^[2]
        ⟨⟨0, 0, 3, 1, true, 8, true, 0, 0⟩, [1, 2, 3, 4]⟩).v.total_bytes
      = 0 + 2 * 3 ∧
    snd_pcmtst_pcm_close ((playbackTick initGlob (fun _ => 0) ⟨4, 1⟩)^[2]
        ⟨⟨0, 0, 3, 1, true, 8, true, 0, 0⟩, [1, 2, 3, 4]⟩).v = 0 :=
  have T := corruption_sticky initGlob (fun _ => 0) ⟨4, 1⟩
    ⟨⟨0, 0, 3, 1, true, 8, true, 0, 0⟩, [1, 2, 3, 4]⟩ rfl (by decide)
  ⟨(T.1 2).1, (T.1 2).2.2.2.1, (T.1 2).2.2.2.2.2⟩

/-- Case analysis of the interleaved verify loop.  With `r` the loop result,
the count `r.2` of completed iterations is at most `fuel`, the position
fields advance by exactly `r.2`, every completed iteration saw a nonzero byte
matching the expected pattern byte, and the loop ended either by exhausting
`fuel` (flag untouched), at a zero byte (flag untouched), or at a nonzero
mismatching byte (flag set). -/
theorem check_loop_i_cases (g : Glob) (rt : Runtime) (area : List Nat) :
    ∀ (fuel : Nat) (v : BufIter), v.buf_pos < rt.dma_bytes →
    (check_loop_i g rt area fuel v).2 ≤ fuel ∧
    (check_loop_i g rt area fuel v).1.b_rw = v.b_rw ∧
    (check_loop_i g rt area fuel v).1.total_bytes
      = v.total_bytes + (check_loop_i g rt area fuel v).2 ∧
    (check_loop_i g rt area fuel v).1.buf_pos
      = (v.buf_pos + (check_loop_i g rt area fuel v).2) % rt.dma_bytes ∧
    (∀ j, j < (check_loop_i g rt area fuel v).2 →
      scanByte area rt v j ≠ 0 ∧ scanByte area rt v j = expectedByteInt g rt v j) ∧
    (((check_loop_i g rt area fuel v).2 = fuel ∧
        (check_loop_i g rt area fuel v).1.is_buf_corrupted = v.is_buf_corrupted) ∨
     ((check_loop_i g rt area fuel v).2 < fuel ∧
        scanByte area rt v (check_loop_i g rt area fuel v).2 = 0 ∧
        (check_loop_i g rt area fuel v).1.is_buf_corrupted = v.is_buf_corrupted) ∨
     ((check_loop_i g rt area fuel v).2 < fuel ∧
        scanByte area rt v (check_loop_i g rt area fuel v).2 ≠ 0 ∧
        scanByte area rt v (check_loop_i g rt area fuel v).2
          ≠ expectedByteInt g rt v (check_loop_i g rt area fuel v).2 ∧
        (check_loop_i g rt area fuel v).1.is_buf_corrupted = true)) := by
  intro fuel
  induction fuel with
  | zero =>
    intro v hbp
    refine ⟨Nat.le_refl _, rfl, rfl, ?_, ?_, Or.inl ⟨rfl, rfl⟩⟩
    · show v.buf_pos = (v.buf_pos + 0) % rt.dma_bytes
      rw [Nat.add_zero, Nat.mod_eq_of_lt hbp]
    · intro j hj
      exact absurd (show j < 0 from hj) (by omega)
  | succ fuel ih =>
    intro v hbp
    have hd : 0 < rt.dma_bytes := Nat.lt_of_le_of_lt (Nat.zero_le _) hbp
    have hscan0 : scanByte area rt v 0 = area.getD v.buf_pos 0 := by
      unfold scanByte
      rw [Nat.add_zero, Nat.mod_eq_of_lt hbp]
    have hexp0 : expectedByteInt g rt v 0 = g.fill_pattern.getD
        (ch_pos_int v.total_bytes rt.channels v.sample_bytes % g.pattern_len) 0 := by
      unfold expectedByteInt
      rw [Nat.add_zero]
    by_cases hz : area.getD v.buf_pos 0 = 0
    · have hres : check_loop_i g rt area (fuel + 1) v = (v, 0) := by
        simp only [check_loop_i]
        rw [if_pos hz]
      rw [hres]
      refine ⟨by omega, rfl, rfl, ?_, fun j hj => absurd hj (by omega),
        Or.inr (Or.inl ⟨by omega, ?_, rfl⟩)⟩
      · rw [Nat.add_zero, Nat.mod_eq_of_lt hbp]
      · rw [hscan0]
        exact hz
    · by_cases hm : area.getD v.buf_pos 0 = g.fill_pattern.getD
          (ch_pos_int v.total_bytes rt.channels v.sample_bytes % g.pattern_len) 0
      · -- matching byte: the loop recurses
        have hres : check_loop_i g rt area (fuel + 1) v =
            ((check_loop_i g rt area fuel (inc_buf_pos v 1 rt.dma_bytes)).1,
             (check_loop_i g rt area fuel (inc_buf_pos v 1 rt.dma_bytes)).2 + 1) := by
          simp only [check_loop_i]
          rw [if_neg hz, if_neg (not_not_intro hm)]
        have hbp1 : (inc_buf_pos v 1 rt.dma_bytes).buf_pos < rt.dma_bytes :=
          Nat.mod_lt _ hd
        obtain ⟨IH1, IH2, IH3, IH4, IH5, IH6⟩ := ih (inc_buf_pos v 1 rt.dma_bytes) hbp1
        have hshift_scan : ∀ j, scanByte area rt (inc_buf_pos v 1 rt.dma_bytes) j
            = scanByte area rt v (j + 1) := by
          intro j
          show area.getD (((v.buf_pos + 1) % rt.dma_bytes + j) % rt.dma_bytes) 0
            = area.getD ((v.buf_pos + (j + 1)) % rt.dma_bytes) 0
          rw [Nat.mod_add_mod, Nat.add_assoc, Nat.add_comm 1 j]
        have hshift_exp : ∀ j, expectedByteInt g rt (inc_buf_pos v 1 rt.dma_bytes) j
            = expectedByteInt g rt v (j + 1) := by
          intro j
          show g.fill_pattern.getD
              (ch_pos_int (v.total_bytes + 1 + j) rt.channels v.sample_bytes
                % g.pattern_len) 0
            = g.fill_pattern.getD
              (ch_pos_int (v.total_bytes + (j + 1)) rt.channels v.sample_bytes
                % g.pattern_len) 0
          rw [Nat.add_assoc, Nat.add_comm 1 j]
        rw [hres]
        have hv1t : (inc_buf_pos v 1 rt.dma_bytes).total_bytes = v.total_bytes + 1 := rfl
        have hv1p : (inc_buf_pos v 1 rt.dma_bytes).buf_pos
            = (v.buf_pos + 1) % rt.dma_bytes := rfl
        refine ⟨by omega, IH2, ?_, ?_, ?_, ?_⟩
        · rw [IH3, hv1t]
          omega
        · rw [IH4, hv1p, Nat.mod_add_mod]
          rw [show v.buf_pos + 1 + (check_loop_i g rt area fuel
            (inc_buf_pos v 1 rt.dma_bytes)).2
            = v.buf_pos + ((check_loop_i g rt area fuel
              (inc_buf_pos v 1 rt.dma_bytes)).2 + 1) by omega]
        · intro j hj
          match j with
          | 0 =>
            refine ⟨?_, ?_⟩
            · rw [hscan0]; exact hz
            · rw [hscan0, hexp0]; exact hm
          | j' + 1 =>
            have hj' := IH5 j' (by omega)
            rw [hshift_scan, hshift_exp] at hj'
            exact hj'
        · rcases IH6 with ⟨hfe, hcor⟩ | ⟨hlt, hsc, hcor⟩ | ⟨hlt, hs0, hsm, hcor⟩
          · exact Or.inl ⟨by omega, hcor⟩
          · refine Or.inr (Or.inl ⟨by omega, ?_, hcor⟩)
            rw [← hshift_scan]
            exact hsc
          · refine Or.inr (Or.inr ⟨by omega, ?_, ?_, hcor⟩)
            · rw [← hshift_scan]
              exact hs0
            · rw [← hshift_scan, ← hshift_exp]
              exact hsm
      · -- nonzero mismatching byte: the loop sets the flag and stops
        have hres : check_loop_i g rt area (fuel + 1) v
            = ({ v with is_buf_corrupted := true }, 0) := by
          simp only [check_loop_i]
          rw [if_neg hz, if_pos hm]
        rw [hres]
        refine ⟨by omega, rfl, rfl, ?_, fun j hj => absurd hj (by omega),
          Or.inr (Or.inr ⟨by omega, ?_, ?_, rfl⟩)⟩
        · rw [Nat.add_zero, Nat.mod_eq_of_lt hbp]
        · rw [hscan0]
          exact hz
        · rw [hscan0, hexp0]
          exact hm

/-- C1: an interleaved playback verify tick on a not-yet-corrupted iterator
advances `buf_pos` (modulo the buffer length) and `total_bytes` by exactly
`b_rw`, and it sets the corruption flag exactly when the scan, reading
successive buffer bytes and stopping at the first zero byte, meets a nonzero
byte that differs from the expected pattern byte
`fill_pattern[ch_pos_int(total_bytes, channels, sample_bytes) % pattern_len]`;
a scan that ends at a zero byte leaves the flag clear. -/
theorem check_buf_block_i_verify (g : Glob) (rt : Runtime) (area : List Nat)
    (v : BufIter) (hcor : v.is_buf_corrupted = false)
    (hbp : v.buf_pos < rt.dma_bytes) :
    (check_buf_block_i g rt area v).total_bytes = v.total_bytes + v.b_rw ∧
    (check_buf_block_i g rt area v).buf_pos
      = (v.buf_pos + v.b_rw) % rt.dma_bytes ∧
    ((check_buf_block_i g rt area v).is_buf_corrupted = true ↔
      ∃ k, k < v.b_rw ∧
        (∀ j, j < k → scanByte area rt v j ≠ 0 ∧
          scanByte area rt v j = expectedByteInt g rt v j) ∧
        scanByte area rt v k ≠ 0 ∧
        scanByte area rt v k ≠ expectedByteInt g rt v k) ∧
    ((∃ k, k < v.b_rw ∧
        (∀ j, j < k → scanByte area rt v j ≠ 0 ∧
          scanByte area rt v j = expectedByteInt g rt v j) ∧
        scanByte area rt v k = 0) →
      (check_buf_block_i g rt area v).is_buf_corrupted = false) := by
  obtain ⟨L1, L2, L3, L4, L5, L6⟩ := check_loop_i_cases g rt area v.b_rw v hbp
  have hcb : check_buf_block_i g rt area v
      = inc_buf_pos (check_loop_i g rt area v.b_rw v).1
        (v.b_rw - (check_loop_i g rt area v.b_rw v).2) rt.dma_bytes := rfl
  rw [hcb]
  have htot : (inc_buf_pos (check_loop_i g rt area v.b_rw v).1
      (v.b_rw - (check_loop_i g rt area v.b_rw v).2) rt.dma_bytes).total_bytes
      = (check_loop_i g rt area v.b_rw v).1.total_bytes
        + (v.b_rw - (check_loop_i g rt area v.b_rw v).2) := rfl
  have hpos : (inc_buf_pos (check_loop_i g rt area v.b_rw v).1
      (v.b_rw - (check_loop_i g rt area v.b_rw v).2) rt.dma_bytes).buf_pos
      = ((check_loop_i g rt area v.b_rw v).1.buf_pos
        + (v.b_rw - (check_loop_i g rt area v.b_rw v).2)) % rt.dma_bytes := rfl
  have hflag : (inc_buf_pos (check_loop_i g rt area v.b_rw v).1
      (v.b_rw - (check_loop_i g rt area v.b_rw v).2) rt.dma_bytes).is_buf_corrupted
      = (check_loop_i g rt area v.b_rw v).1.is_buf_corrupted := rfl
  refine ⟨?_, ?_, ?_, ?_⟩
  · rw [htot, L3]
    omega
  · rw [hpos, L4, Nat.mod_add_mod]
    rw [show v.buf_pos + (check_loop_i g rt area v.b_rw v).2
        + (v.b_rw - (check_loop_i g rt area v.b_rw v).2)
      = v.buf_pos + v.b_rw by omega]
  · rw [hflag]
    constructor
    · intro hcorr
      rcases L6 with ⟨_, hc⟩ | ⟨_, _, hc⟩ | ⟨hlt, hs0, hsm, _⟩
      · rw [hc, hcor] at hcorr
        exact absurd hcorr (by simp)
      · rw [hc, hcor] at hcorr
        exact absurd hcorr (by simp)
      · exact ⟨(check_loop_i g rt area v.b_rw v).2, hlt, L5, hs0, hsm⟩
    · rintro ⟨k, hk, hpre, hknz, hkne⟩
      rcases L6 with ⟨hfe, hc⟩ | ⟨hlt, hsc, hc⟩ | ⟨_, _, _, hc⟩
      · exact absurd (L5 k (by omega)).2 hkne
      · rcases Nat.lt_trichotomy k (check_loop_i g rt area v.b_rw v).2
            with hlt' | heq | hgt
        · exact absurd (L5 k hlt').2 hkne
        · rw [heq] at hknz
          exact absurd hsc hknz
        · exact absurd hsc (hpre _ hgt).1
      · exact hc
  · rw [hflag]
    rintro ⟨k, hk, hpre, hk0⟩
    rcases L6 with ⟨_, hc⟩ | ⟨_, _, hc⟩ | ⟨hlt, hs0, hsm, _⟩
    · rw [hc, hcor]
    · rw [hc, hcor]
    · rcases Nat.lt_trichotomy k (check_loop_i g rt area v.b_rw v).2
          with hlt' | heq | hgt
      · exact absurd hk0 (L5 k hlt').1
      · rw [heq] at hk0
        exact absurd hk0 hs0
      · exact absurd (hpre _ hgt).2 hsm

/-- Witness for C1: a clean 4-byte scan over pattern `[1,2]` hitting the zero
end-of-data sentinel at offset 3. -/
theorem check_buf_block_i_verify_witness :
    (check_buf_block_i ⟨[1, 2], 2, 1⟩ ⟨4, 1⟩ [1, 2, 1, 0]
        ⟨0, 0, 4, 1, false, 0, true, 0, 0⟩).total_bytes = 0 + 4 ∧
    (check_buf_block_i ⟨[1, 2], 2, 1⟩ ⟨4, 1⟩ [1, 2, 1, 0]
        ⟨0, 0, 4, 1, false, 0, true, 0, 0⟩).buf_pos = (0 + 4) % 4 ∧
    (check_buf_block_i ⟨[1, 2], 2, 1⟩ ⟨4, 1⟩ [1, 2, 1, 0]
        ⟨0, 0, 4, 1, false, 0, true, 0, 0⟩).is_buf_corrupted = false :=
  have T := check_buf_block_i_verify ⟨[1, 2], 2, 1⟩ ⟨4, 1⟩ [1, 2, 1, 0]
    ⟨0, 0, 4, 1, false, 0, true, 0, 0⟩ rfl (by decide)
  ⟨T.1, T.2.1, T.2.2.2 ⟨3, by decide, by decide, by decide⟩⟩

/-- C3 counterexample: non-interleaved pattern fill, 1 channel, pattern
`[1,2,3]`, 4-byte buffer, `b_rw = 4`.  After two ticks the buffer has wrapped
once; byte 0 of channel 0 (written last with pattern index `4 % 3 = 1`) holds
`2`, not `fill_pattern[0 % 3] = 1` — the sub-buffer no longer equals the
repeated pattern after wraparound. -/
theorem fill_nint_wrap_counterexample :
    (fill_ticks_nint ⟨[1, 2, 3], 3, FILL_MODE_PAT⟩ ⟨4, 1⟩ 2
        ⟨⟨0, 0, 4, 1, false, 0, false, 0, 4⟩, [0, 0, 0, 0]⟩).area.getD
      (4 * 0 + 0) 0 = 2 ∧
    (⟨[1, 2, 3], 3, FILL_MODE_PAT⟩ : Glob).fill_pattern.getD (0 % 3) 0 = 1 ∧
    (fill_ticks_nint ⟨[1, 2, 3], 3, FILL_MODE_PAT⟩ ⟨4, 1⟩ 2
        ⟨⟨0, 0, 4, 1, false, 0, false, 0, 4⟩, [0, 0, 0, 0]⟩).area.getD
      (4 * 0 + 0) 0
      ≠ (⟨[1, 2, 3], 3, FILL_MODE_PAT⟩ : Glob).fill_pattern.getD (0 % 3) 0 := by
  refine ⟨by decide, by decide, by decide⟩

/-- Invariant of the non-interleaved pattern fill loop: as long as the total
byte count stays within one (channel-divisible) buffer length, every byte of
every channel block is either still `0` or holds the pattern byte indexed by
its in-channel offset; the position fields advance by exactly `fuel`. -/
theorem fill_loop_nint_invariant (g : Glob) (rt : Runtime)
    (hch : 0 < rt.channels) (hdvd : rt.channels ∣ rt.dma_bytes) :
    ∀ (fuel i : Nat) (v : BufIter) (area : List Nat),
    v.chan_block = rt.dma_bytes / rt.channels →
    v.buf_pos = v.total_bytes % rt.dma_bytes →
    v.total_bytes + fuel ≤ rt.dma_bytes →
    area.length = rt.dma_bytes →
    (∀ k j, k < rt.channels → j < rt.dma_bytes / rt.channels →
      area.getD ((rt.dma_bytes / rt.channels) * k + j) 0 = 0 ∨
      area.getD ((rt.dma_bytes / rt.channels) * k + j) 0
        = g.fill_pattern.getD (j % g.pattern_len) 0) →
    (fill_loop_nint g rt i fuel v area).1.total_bytes = v.total_bytes + fuel ∧
    (fill_loop_nint g rt i fuel v area).1.buf_pos
      = (v.total_bytes + fuel) % rt.dma_bytes ∧
    (fill_loop_nint g rt i fuel v area).1.chan_block = v.chan_block ∧
    (fill_loop_nint g rt i fuel v area).1.b_rw = v.b_rw ∧
    (fill_loop_nint g rt i fuel v area).2.length = rt.dma_bytes ∧
    (∀ k j, k < rt.channels → j < rt.dma_bytes / rt.channels →
      (fill_loop_nint g rt i fuel v area).2.getD
          ((rt.dma_bytes / rt.channels) * k + j) 0 = 0 ∨
      (fill_loop_nint g rt i fuel v area).2.getD
          ((rt.dma_bytes / rt.channels) * k + j) 0
        = g.fill_pattern.getD (j % g.pattern_len) 0) := by
  intro fuel
  induction fuel with
  | zero =>
    intro i v area hcb hbp hbound hlen hinv
    exact ⟨rfl, hbp, rfl, rfl, hlen, hinv⟩
  | succ fuel ih =>
    intro i v area hcb hbp hbound hlen hinv
    have hd : 0 < rt.dma_bytes := by
      rcases hdvd with ⟨c, hc⟩
      omega
    have ht : v.total_bytes < rt.dma_bytes := by omega
    have hbp' : v.buf_pos = v.total_bytes := by
      rw [hbp, Nat.mod_eq_of_lt ht]
    have hdC : rt.dma_bytes = rt.channels * (rt.dma_bytes / rt.channels) :=
      (Nat.mul_div_cancel' hdvd).symm
    have htdiv : v.total_bytes / rt.channels < rt.dma_bytes / rt.channels := by
      rw [Nat.div_lt_iff_lt_mul hch]
      calc v.total_bytes < rt.dma_bytes := ht
        _ = rt.dma_bytes / rt.channels * rt.channels := by
            rw [Nat.mul_comm] at hdC
            exact hdC
    have hm : i % rt.channels < rt.channels := Nat.mod_lt _ hch
    have hposval : buf_pos_nint v rt.channels (i % rt.channels)
        = (rt.dma_bytes / rt.channels) * (i % rt.channels)
          + v.total_bytes / rt.channels := by
      unfold buf_pos_nint
      rw [hbp', hcb, Nat.add_comm, Nat.mul_comm]
    have hposlt : buf_pos_nint v rt.channels (i % rt.channels) < rt.dma_bytes := by
      rw [hposval]
      calc (rt.dma_bytes / rt.channels) * (i % rt.channels)
            + v.total_bytes / rt.channels
          < (rt.dma_bytes / rt.channels) * (i % rt.channels)
            + rt.dma_bytes / rt.channels := by omega
        _ = (rt.dma_bytes / rt.channels) * (i % rt.channels + 1) := by ring
        _ ≤ (rt.dma_bytes / rt.channels) * rt.channels :=
            Nat.mul_le_mul_left _ (by omega)
        _ = rt.dma_bytes := by
            rw [Nat.mul_comm]
            exact hdC.symm
    have hstep : fill_loop_nint g rt i (fuel + 1) v area
        = fill_loop_nint g rt (i + 1) fuel (inc_buf_pos v 1 rt.dma_bytes)
          (area.set (buf_pos_nint v rt.channels (i % rt.channels))
            (g.fill_pattern.getD
              ((v.total_bytes / rt.channels) % g.pattern_len) 0)) := rfl
    rw [hstep]
    have hinv' : ∀ k j, k < rt.channels → j < rt.dma_bytes / rt.channels →
        (area.set (buf_pos_nint v rt.channels (i % rt.channels))
          (g.fill_pattern.getD
            ((v.total_bytes / rt.channels) % g.pattern_len) 0)).getD
          ((rt.dma_bytes / rt.channels) * k + j) 0 = 0 ∨
        (area.set (buf_pos_nint v rt.channels (i % rt.channels))
          (g.fill_pattern.getD
            ((v.total_bytes / rt.channels) % g.pattern_len) 0)).getD
          ((rt.dma_bytes / rt.channels) * k + j) 0
          = g.fill_pattern.getD (j % g.pattern_len) 0 := by
      intro k j hk hj
      by_cases hidx : buf_pos_nint v rt.channels (i % rt.channels)
          = (rt.dma_bytes / rt.channels) * k + j
      · have hun : i % rt.channels = k ∧ v.total_bytes / rt.channels = j := by
          apply block_decomp_unique htdiv hj
          rw [← hposval]
          exact hidx
        right
        rw [← hidx, getD_set_eq _ _ _ (by rw [hlen]; exact hposlt), hun.2]
      · rw [getD_set_ne _ _ _ _ hidx]
        exact hinv k j hk hj
    have hIH := ih (i + 1) (inc_buf_pos v 1 rt.dma_bytes)
      (area.set (buf_pos_nint v rt.channels (i % rt.channels))
        (g.fill_pattern.getD ((v.total_bytes / rt.channels) % g.pattern_len) 0))
      hcb
      (by show (v.buf_pos + 1) % rt.dma_bytes = (v.total_bytes + 1) % rt.dma_bytes
          rw [hbp'])
      (by show v.total_bytes + 1 + fuel ≤ rt.dma_bytes
          omega)
      (by rw [List.length_set]; exact hlen)
      hinv'
    obtain ⟨A1, A2, A3, A4, A5, A6⟩ := hIH
    have hts : (inc_buf_pos v 1 rt.dma_bytes).total_bytes + fuel
        = v.total_bytes + (fuel + 1) := by
      show v.total_bytes + 1 + fuel = v.total_bytes + (fuel + 1)
      omega
    refine ⟨?_, ?_, A3, A4, A5, A6⟩
    · rw [A1, hts]
    · rw [A2, hts]

/-- The per-tick version of the non-interleaved fill invariant: it is
preserved by any number of whole ticks while the total stays within one
buffer length. -/
theorem fill_ticks_nint_invariant (g : Glob) (rt : Runtime)
    (hch : 0 < rt.channels) (hdvd : rt.channels ∣ rt.dma_bytes) :
    ∀ (n : Nat) (s : TickState),
    s.v.chan_block = rt.dma_bytes / rt.channels →
    s.v.buf_pos = s.v.total_bytes % rt.dma_bytes →
    s.v.total_bytes + n * s.v.b_rw ≤ rt.dma_bytes →
    s.area.length = rt.dma_bytes →
    (∀ k j, k < rt.channels → j < rt.dma_bytes / rt.channels →
      s.area.getD ((rt.dma_bytes / rt.channels) * k + j) 0 = 0 ∨
      s.area.getD ((rt.dma_bytes / rt.channels) * k + j) 0
        = g.fill_pattern.getD (j % g.pattern_len) 0) →
    (fill_ticks_nint g rt n s).v.total_bytes
      = s.v.total_bytes + n * s.v.b_rw ∧
    (fill_ticks_nint g rt n s).v.buf_pos
      = (s.v.total_bytes + n * s.v.b_rw) % rt.dma_bytes ∧
    (∀ k j, k < rt.channels → j < rt.dma_bytes / rt.channels →
      (fill_ticks_nint g rt n s).area.getD
          ((rt.dma_bytes / rt.channels) * k + j) 0 = 0 ∨
      (fill_ticks_nint g rt n s).area.getD
          ((rt.dma_bytes / rt.channels) * k + j) 0
        = g.fill_pattern.getD (j % g.pattern_len) 0) := by
  intro n
  induction n with
  | zero =>
    intro s hcb hbp hbound hlen hinv
    refine ⟨?_, ?_, hinv⟩
    · show s.v.total_bytes = s.v.total_bytes + 0 * s.v.b_rw
      omega
    · show s.v.buf_pos = (s.v.total_bytes + 0 * s.v.b_rw) % rt.dma_bytes
      rw [hbp]
      congr 1
      omega
  | succ n ih =>
    intro s hcb hbp hbound hlen hinv
    have hB : s.v.total_bytes + (n + 1) * s.v.b_rw
        = s.v.total_bytes + s.v.b_rw + n * s.v.b_rw := by
      rw [Nat.succ_mul]
      omega
    obtain ⟨B1, B2, B3, B4, B5, B6⟩ :=
      fill_loop_nint_invariant g rt hch hdvd s.v.b_rw 0 s.v s.area hcb hbp
        (by omega) hlen hinv
    have hstep : fill_ticks_nint g rt (n + 1) s
        = fill_ticks_nint g rt n
          ⟨(fill_block_pattern_nint g rt s.v s.area).1,
           (fill_block_pattern_nint g rt s.v s.area).2⟩ := rfl
    rw [hstep]
    have hIH := ih ⟨(fill_block_pattern_nint g rt s.v s.area).1,
        (fill_block_pattern_nint g rt s.v s.area).2⟩
      (B3.trans hcb)
      (by show (fill_loop_nint g rt 0 s.v.b_rw s.v s.area).1.buf_pos
            = (fill_loop_nint g rt 0 s.v.b_rw s.v s.area).1.total_bytes
              % rt.dma_bytes
          rw [B2, B1])
      (by show (fill_loop_nint g rt 0 s.v.b_rw s.v s.area).1.total_bytes
            + n * (fill_loop_nint g rt 0 s.v.b_rw s.v s.area).1.b_rw
            ≤ rt.dma_bytes
          rw [B1, B4]
          omega)
      B5 B6
    obtain ⟨C1, C2, C3⟩ := hIH
    refine ⟨?_, ?_, C3⟩
    · rw [C1]
      show (fill_loop_nint g rt 0 s.v.b_rw s.v s.area).1.total_bytes
          + n * (fill_loop_nint g rt 0 s.v.b_rw s.v s.area).1.b_rw = _
      rw [B1, B4, hB]
    · rw [C2]
      show ((fill_loop_nint g rt 0 s.v.b_rw s.v s.area).1.total_bytes
          + n * (fill_loop_nint g rt 0 s.v.b_rw s.v s.area).1.b_rw)
          % rt.dma_bytes = _
      rw [B1, B4, hB]

/-- C3 amended: non-interleaved pattern-mode fill from a freshly opened
iterator over a zeroed buffer whose length is a multiple of the channel
count: after any number `n` of fill ticks with `n * b_rw ≤ buffer_len` (no
wraparound yet), every byte of channel `k`'s contiguous block of length
`chan_block = buffer_len / channels` at offset `chan_block * k` is either
still the unwritten `0` or equals `fill_pattern[j % pattern_len]` for its
in-channel offset `j`; the position fields advance by exactly `n * b_rw`.
(The counterexample shows the unrestricted claim fails once the position
wraps.) -/
theorem fill_nint_channel_pattern (g : Glob) (rt : Runtime) (n B : Nat)
    (hch : 0 < rt.channels) (hdvd : rt.channels ∣ rt.dma_bytes)
    (hbound : n * B ≤ rt.dma_bytes) :
    (fill_ticks_nint g rt n
        ⟨{ snd_pcmtst_pcm_open with b_rw := B, chan_block := rt.dma_bytes / rt.channels },
         List.replicate rt.dma_bytes 0⟩).v.total_bytes = n * B ∧
    (fill_ticks_nint g rt n
        ⟨{ snd_pcmtst_pcm_open with b_rw := B, chan_block := rt.dma_bytes / rt.channels },
         List.replicate rt.dma_bytes 0⟩).v.buf_pos
      = (n * B) % rt.dma_bytes ∧
    ∀ k j, k < rt.channels → j < rt.dma_bytes / rt.channels →
      (fill_ticks_nint g rt n
          ⟨{ snd_pcmtst_pcm_open with b_rw := B, chan_block := rt.dma_bytes / rt.channels },
           List.replicate rt.dma_bytes 0⟩).area.getD
          ((rt.dma_bytes / rt.channels) * k + j) 0 = 0 ∨
      (fill_ticks_nint g rt n
          ⟨{ snd_pcmtst_pcm_open with b_rw := B, chan_block := rt.dma_bytes / rt.channels },
           List.replicate rt.dma_bytes 0⟩).area.getD
          ((rt.dma_bytes / rt.channels) * k + j) 0
        = g.fill_pattern.getD (j % g.pattern_len) 0 := by
  have hrep : ∀ p : Nat, (List.replicate rt.dma_bytes (0 : Nat)).getD p 0 = 0 := by
    intro p
    simp [List.getD_eq_getElem?_getD, List.getElem?_replicate]
    split_ifs <;> rfl
  obtain ⟨T1, T2, T3⟩ := fill_ticks_nint_invariant g rt hch hdvd n
    ⟨{ snd_pcmtst_pcm_open with b_rw := B, chan_block := rt.dma_bytes / rt.channels },
     List.replicate rt.dma_bytes 0⟩
    rfl (by show (0 : Nat) = 0 % rt.dma_bytes; rw [Nat.zero_mod])
    (by show 0 + n * B ≤ rt.dma_bytes; omega)
    (by simp)
    (fun k j _ _ => Or.inl (hrep _))
  refine ⟨?_, ?_, T3⟩
  · rw [T1]
    show 0 + n * B = n * B
    omega
  · rw [T2]
    show (0 + n * B) % rt.dma_bytes = (n * B) % rt.dma_bytes
    congr 1
    omega

/-- Witness for C3's amended theorem: 2 channels, 8-byte buffer, pattern
`[1,2]`, two ticks of 4 bytes; channel 1, offset 2. -/
theorem fill_nint_channel_pattern_witness :
    (fill_ticks_nint ⟨[1, 2], 2, FILL_MODE_PAT⟩ ⟨8, 2⟩ 2
        ⟨{ snd_pcmtst_pcm_open with b_rw := 4, chan_block := 8 / 2 },
         List.replicate 8 0⟩).v.total_bytes = 2 * 4 ∧
    ((fill_ticks_nint ⟨[1, 2], 2, FILL_MODE_PAT⟩ ⟨8, 2⟩ 2
        ⟨{ snd_pcmtst_pcm_open with b_rw := 4, chan_block := 8 / 2 },
         List.replicate 8 0⟩).area.getD ((8 / 2) * 1 + 2) 0 = 0 ∨
     (fill_ticks_nint ⟨[1, 2], 2, FILL_MODE_PAT⟩ ⟨8, 2⟩ 2
        ⟨{ snd_pcmtst_pcm_open with b_rw := 4, chan_block := 8 / 2 },
         List.replicate 8 0⟩).area.getD ((8 / 2) * 1 + 2) 0
       = (⟨[1, 2], 2, FILL_MODE_PAT⟩ : Glob).fill_pattern.getD (2 % 2) 0) :=
  have T := fill_nint_channel_pattern ⟨[1, 2], 2, FILL_MODE_PAT⟩ ⟨8, 2⟩ 2 4
    (by decide) (by decide) (by decide)
  ⟨T.1, T.2.2 1 2 (by decide) (by decide)⟩

end Pcmtest
